import Mathlib

/-!
Shallow embedding of the proto rule-generation core of bazel-gazelle
(the `proto` language plugin's `GenerateRules` pipeline and the Go
plugin's static kind table), together with proofs checking the
natural-language specification against it.

Go maps are modelled as association lists (`List (String × _)`), map
key sets as `List String` (membership is what matters), byte strings as
`String` / `List Char`, and the `(value, error)` return convention as
`Except`.  Logging is modelled by returning the list of logged messages.
-/

namespace GazelleProto

/-! ## Generic string / list helpers mirroring the Go standard library -/

/-- Model of `strings.Replace(s, old, new, -1)` for the single-character
patterns used by the source (`"/"→"_"` and `"."→"_"`): replace every
occurrence of character `a` by `b`. -/
def replaceChar (s : String) (a b : Char) : String :=
  ⟨s.data.map (fun c => if c = a then b else c)⟩

/-- Model of `strings.HasSuffix`. -/
def hasSuffix (s suffix : String) : Bool :=
  suffix.data.isSuffixOf s.data

/-- Model of `strings.TrimSuffix`: drop `suffix` when present, else return
`s` unchanged. -/
def trimSuffix (s suffix : String) : String :=
  if suffix.data.isSuffixOf s.data then
    ⟨s.data.take (s.data.length - suffix.data.length)⟩
  else s

/-- Model of `strings.IndexByte(s, c)` followed by the slice `s[i+1:]`:
the substring after the first occurrence of `c`, or `none` when `c` does
not occur. -/
def afterFirstChar (c : Char) : List Char → Option (List Char)
  | [] => none
  | x :: xs => if x = c then some xs else afterFirstChar c xs

/-- Model of `strings.LastIndexByte(s, c)` followed by the slice
`s[i+1:]`: the substring after the last occurrence of `c`, or `none` when
`c` does not occur. -/
def afterLastChar (c : Char) : List Char → Option (List Char)
  | [] => none
  | x :: xs =>
    match afterLastChar c xs with
    | some r => some r
    | none => if x = c then some xs else none

/-- The last `i < n` satisfying `P`, scanning `0, 1, …, n-1` and keeping
the latest hit (shared skeleton of `strings.LastIndex` and
`strings.LastIndexFunc`). -/
def lastIdxSat (P : Nat → Bool) (n : Nat) : Option Nat :=
  (List.range n).foldl (fun acc i => if P i then some i else acc) none

/-- Model of `strings.LastIndex(s, pat)`: the largest position where
`pat` occurs as a contiguous substring of `s`. -/
def lastSubstrPos (s pat : List Char) : Option Nat :=
  lastIdxSat (fun i => pat.isPrefixOf (s.drop i)) (s.length + 1)

/-- Lexicographic "less or equal" on character lists, mirroring Go's
byte-wise string comparison (UTF-8 byte order coincides with code-point
order). -/
def lexLe : List Char → List Char → Bool
  | [], _ => true
  | _ :: _, [] => false
  | a :: as, b :: bs =>
    if a < b then true else if b < a then false else lexLe as bs

/-- The string comparison used by `sort.Strings`. -/
def goStrLe (x y : String) : Bool :=
  lexLe x.data y.data

/-- Insert a string into a (sorted) list, keeping lexicographic order. -/
def insertSorted (x : String) : List String → List String
  | [] => [x]
  | y :: ys => if goStrLe x y then x :: y :: ys else y :: insertSorted x ys

/-- Model of `sort.Strings`: lexicographic insertion sort. -/
def sortStrings (l : List String) : List String :=
  l.foldr insertSorted []

/-- Replace the value under key `k` in an association list, or append the
binding when absent. Models assignment `m[k] = v` on a Go map whose
entries are kept in insertion order. -/
def setPair {β : Type} (l : List (String × β)) (k : String) (v : β) :
    List (String × β) :=
  match l with
  | [] => [(k, v)]
  | (k', v') :: rest =>
    if k' = k then (k', v) :: rest else (k', v') :: setPair rest k v

/-- Lookup in an association list (Go map read `m[k]`, `ok` flavour). -/
def getPair {β : Type} (l : List (String × β)) (k : String) : Option β :=
  (l.find? (fun p => p.1 == k)).map (·.2)

/-! ## Data model -/

/-- Per-file analysis result (`FileInfo` produced by `protoFileInfo`,
external to the fragment): declared package, options and imports. -/
structure FileInfo where
  name : String
  packageName : String
  options : List (String × String)
  imports : List String
  deriving DecidableEq, Repr

/-- A discovered proto package: display name, member file-name set, the
set of imports and the option map. Go's `map` fields are lists here;
`files` and `imports` stand for key sets. -/
structure Package where
  name : String
  files : List String
  imports : List String
  options : List (String × String)
  deriving DecidableEq, Repr

/-- Modelled from the spec: `newPackage` creates a Package "empty with a
name" (its definition lives in `package.go`, outside the fragment). -/
def newPackage (name : String) : Package :=
  { name := name, files := [], imports := [], options := [] }

/-- Modelled from the spec: `addFile` "merges one SourceUnitInfo's
own imports/options, adds its file" (it lives in `package.go`,
outside the fragment). Imports are unioned, options are last-writer-wins
per key. -/
def Package.addFile (p : Package) (info : FileInfo) : Package :=
  { p with
    files := if info.name ∈ p.files then p.files else p.files ++ [info.name]
    imports := p.imports ++ info.imports.filter (fun i => i ∉ p.imports)
    options := info.options.foldl (fun os kv => setPair os kv.1 kv.2) p.options }

/-- Modelled from the spec: `addGenFile` "adds a file name with no
associated analysis, e.g. a generated artifact" (its definition lives in
`package.go`, outside the fragment). -/
def Package.addGenFile (p : Package) (name : String) : Package :=
  { p with files := if name ∈ p.files then p.files else p.files ++ [name] }

/-- A rendered attribute value: either a plain list of strings (the only
shape this generator writes) or an opaque non-list expression found in an
existing build file. -/
inductive AttrValue where
  | strList : List String → AttrValue
  | opaque0 : AttrValue
  deriving DecidableEq, Repr

/-- A private (deferred, unrendered) attribute value. -/
inductive PrivValue where
  | pkg : Package → PrivValue
  | strs : List String → PrivValue
  | str : String → PrivValue
  deriving DecidableEq, Repr

/-- A build rule record: kind, name, rendered attributes and private
(deferred) attributes, each an insertion-ordered association list. -/
structure Rule where
  kind : String
  name : String
  attrs : List (String × AttrValue)
  privAttrs : List (String × PrivValue)
  deriving DecidableEq, Repr

/-- Model of `rule.NewRule`. -/
def Rule.new (kind name : String) : Rule :=
  { kind := kind, name := name, attrs := [], privAttrs := [] }

/-- Model of `rule.Rule.SetAttr`. -/
def Rule.setAttr (r : Rule) (k : String) (v : AttrValue) : Rule :=
  { r with attrs := setPair r.attrs k v }

/-- Model of `rule.Rule.SetPrivateAttr`. -/
def Rule.setPrivAttr (r : Rule) (k : String) (v : PrivValue) : Rule :=
  { r with privAttrs := setPair r.privAttrs k v }

/-- Model of `rule.Rule.Attr`: the attribute expression under `k`, when
present. -/
def Rule.attr? (r : Rule) (k : String) : Option AttrValue :=
  getPair r.attrs k

/-- Model of `rule.Rule.AttrStrings`: the attribute as a plain string
list, or `[]` when absent or not a plain string list. -/
def Rule.attrStrings (r : Rule) (k : String) : List String :=
  match r.attr? k with
  | some (.strList l) => l
  | _ => []

/-- Lookup of a private attribute. -/
def Rule.privAttr? (r : Rule) (k : String) : Option PrivValue :=
  getPair r.privAttrs k

/-- An existing build file: its list of rules. -/
structure BuildFile where
  rules : List Rule
  deriving DecidableEq, Repr

/-- The proto generation mode. `defaultMode` is single-canonical mode,
`packageMode` is multi-package mode. Modelled from the spec for the modes
the fragment's `switch` dispatches on; `disableMode` stands for the modes
whose `ShouldGenerateRules()` is false. -/
inductive Mode where
  | defaultMode
  | packageMode
  | disableMode
  deriving DecidableEq, Repr

/-- Modelled from the spec: "Don't create or delete proto rules in this
mode" — rule generation runs exactly in the two generating modes. -/
def Mode.shouldGenerateRules : Mode → Bool
  | .disableMode => false
  | _ => true

/-- The proto configuration fields the fragment reads: mode, the
grouping option key (`groupOption`) and the Go prefix (`GoPrefix`). -/
structure ProtoConfig where
  mode : Mode
  groupOption : String
  goPfx : String
  deriving DecidableEq, Repr

/-- The fields of `language.GenerateArgs` the fragment reads, plus the
configured kind mapping `c.MapKind` as a function. -/
structure GenerateArgs where
  mapKind : String → String
  dir : String
  rel : String
  regularFiles : List String
  genFiles : List String
  file : Option BuildFile

/-- The generator state built by `newGenerator`. -/
structure Generator where
  mapKind : String → String
  file : Option BuildFile
  rel : String
  shouldSetVisibility : Bool
  regularProtoFiles : List String
  genProtoFiles : List String

/-! ## The embedded source functions (`generate.go` of the proto plugin) -/

/-- The character class of Go identifier characters tested by the
`notIdent` closure inside `RuleName`. -/
def isIdentChar (c : Char) : Bool :=
  ('A' ≤ c && c ≤ 'Z') || ('a' ≤ c && c ≤ 'z') || ('0' ≤ c && c ≤ '9') || c == '_'

/-- The `notIdent` closure of `RuleName`. -/
def notIdentChar (c : Char) : Bool :=
  !(isIdentChar c)

/-- The per-candidate trimming step of `RuleName`:
`strings.LastIndexFunc(name, notIdent)` followed by the slice
`name[i+1:]` when a non-identifier character exists. -/
def trimToIdentSuffix (name : String) : String :=
  match lastIdxSat (fun i => notIdentChar (name.data.getD i ' ')) name.data.length with
  | some i => ⟨name.data.drop (i + 1)⟩
  | none => name

/-- The scanning loop of `RuleName`: the first candidate whose trimmed
form is non-empty, defaulting to `"root"`. -/
def RuleNameBase : List String → String
  | [] => "root"
  | name :: rest =>
    let t := trimToIdentSuffix name
    if t ≠ "" then t else RuleNameBase rest

/-- `RuleName` returns a name for a proto_library derived from the given
strings: the first non-empty identifier-character suffix among the
candidates (else `"root"`), with `"_proto"` appended. -/
def RuleName (names : List String) : String :=
  RuleNameBase names ++ "_proto"

/-- `goPackageName` guesses the Go package identifier for a proto
package: the `go_package` option (part after the first `;`, else after
the last `/`, else the raw value), else the declared name with `.`
replaced by `_`, else the single member file's name minus `".proto"`,
else `""`. -/
def goPackageName (pkg : Package) : String :=
  match getPair pkg.options "go_package" with
  | some opt =>
    match afterFirstChar ';' opt.data with
    | some r => ⟨r⟩
    | none =>
      match afterLastChar '/' opt.data with
      | some r => ⟨r⟩
      | none => opt
  | none =>
    if pkg.name ≠ "" then
      replaceChar pkg.name '.' '_'
    else
      match pkg.files with
      | [f] => trimSuffix f ".proto"
      | _ => ""

/-- The ambiguity error produced by `selectPackage` (`fmt.Errorf` with
the directory). -/
def ambiguousErr (dir : String) : String :=
  dir ++ ": directory contains multiple proto packages. Gazelle can only generate a proto_library for one package."

/-- `selectPackage` chooses a package to generate rules for: none for an
empty map, the sole entry for a singleton map, else the entry whose
non-empty `goPackageName` equals the directory-derived default name, else
an ambiguity error. The Go map is an association list in iteration
order. -/
def selectPackage (dir rel : String) (packageMap : List (String × Package)) :
    Except String (Option Package) :=
  match packageMap with
  | [] => .ok none
  | [kv] => .ok (some kv.2)
  | _ :: _ :: _ =>
    let defaultPackageName := replaceChar rel '/' '_'
    match packageMap.find?
        (fun kv => !(goPackageName kv.2 == "") && (goPackageName kv.2 == defaultPackageName)) with
    | some kv => .ok (some kv.2)
    | none => .error (ambiguousErr dir)

/-- The partition key of one file inside `buildPackages`: the declared
package name, overridden by the first option whose key is the configured
group option (when one is configured). -/
def partitionKey (groupOption : String) (info : FileInfo) : String :=
  if groupOption ≠ "" then
    match info.options.find? (fun kv => kv.1 == groupOption) with
    | some kv => kv.2
    | none => info.packageName
  else info.packageName

/-- One step of the package-map construction in `buildPackages`:
`packageMap[key]` is created via `newPackage` when missing, then
`addFile`d. -/
def addInfoToMap (groupOption : String) (pm : List (String × Package))
    (info : FileInfo) : List (String × Package) :=
  let key := partitionKey groupOption info
  match getPair pm key with
  | some pkg => setPair pm key (pkg.addFile info)
  | none => setPair pm key ((newPackage info.packageName).addFile info)

/-- The package map built by the first loop of `buildPackages` from the
per-file analysis results. -/
def buildPackageMap (groupOption : String) (infos : List FileInfo) :
    List (String × Package) :=
  infos.foldl (addInfoToMap groupOption) []

/-- `checkInternalVisibility` overrides the given visibility if the
package is internal: slice before the last `"/internal/"`, or the
repository root when the path starts with `"internal/"`. -/
def checkInternalVisibility (rel visibility : String) : String :=
  match lastSubstrPos rel.data "/internal/".data with
  | some i => "//" ++ (⟨rel.data.take i⟩ : String) ++ ":__subpackages__"
  | none =>
    if "internal/".data.isPrefixOf rel.data then "//:__subpackages__"
    else visibility

/-- `hasDefaultVisibility` returns whether the existing file contains a
`package` rule with a `default_visibility` attribute. -/
def hasDefaultVisibility (f : Option BuildFile) : Bool :=
  match f with
  | none => false
  | some f =>
    f.rules.any (fun r => r.kind == "package" && (r.attr? "default_visibility").isSome)

/-- The generated-proto-file collection loop of `newGenerator`, written
exactly as the source has it: each matching iteration assigns
`genProtoFiles = append(args.GenFiles, name)` — appending to
`args.GenFiles`, not to the accumulator. -/
def computeGenProtoFiles (genFiles : List String) : List String :=
  genFiles.foldl
    (fun acc name => if hasSuffix name ".proto" then genFiles ++ [name] else acc)
    []

/-- `newGenerator` filters the directory's regular files down to
`.proto` files, collects generated `.proto` files (via the loop above),
and records whether visibility should be set. -/
def newGenerator (args : GenerateArgs) : Generator :=
  { mapKind := args.mapKind
    file := args.file
    rel := args.rel
    shouldSetVisibility := args.file.isNone || !hasDefaultVisibility args.file
    regularProtoFiles := args.regularFiles.filter (fun name => hasSuffix name ".proto")
    genProtoFiles := computeGenProtoFiles args.genFiles }

/-- `buildPackages` builds the package map from the analyzed regular
proto files and dispatches on the mode: single-canonical selection (with
generated files added to the selected package), multi-package
pass-through, or nothing. Returns the packages and the logged error
messages. `analyze` is the external `protoFileInfo` analyzer applied as
`analyze dir name`. -/
def buildPackages (pc : ProtoConfig) (analyze : String → String → FileInfo)
    (g : Generator) (dir : String) : List Package × List String :=
  let pm := buildPackageMap pc.groupOption (g.regularProtoFiles.map (analyze dir))
  match pc.mode with
  | .defaultMode =>
    match selectPackage dir g.rel pm with
    | .error e => ([], [e])
    | .ok none => ([], [])
    | .ok (some pkg) => ([g.genProtoFiles.foldl (fun p n => p.addGenFile n) pkg], [])
  | .packageMode => (pm.map (fun kv => kv.2), [])
  | .disableMode => ([], [])

/-- The fixed private key under which the full `Package` is attached to
the synthesized rule (`PackageKey`; its constant value lives outside the
fragment, only its fixedness matters). -/
def PackageKey : String :=
  "_package"

/-- The fixed private key under which the sorted import list is attached
(`config.GazelleImportsKey`; its constant value lives outside the
fragment, only its fixedness matters). -/
def GazelleImportsKey : String :=
  "_gazelle_imports"

/-- `generateProto` creates a new `proto_library` rule for a package:
mode-dependent name, sorted `srcs` (omitted when empty), the package and
its sorted imports and options as private attributes, and visibility
when the directory declares no default. -/
def generateProto (pc : ProtoConfig) (g : Generator) (pkg : Package) : Rule :=
  let name :=
    if pc.mode = .defaultMode then
      RuleName [goPackageName pkg, pc.goPfx, g.rel]
    else
      RuleName [(getPair pkg.options pc.groupOption).getD "", pkg.name, g.rel]
  let r := Rule.new (g.mapKind "proto_library") name
  let srcs := sortStrings pkg.files
  let r := if srcs.length > 0 then r.setAttr "srcs" (.strList srcs) else r
  let r := r.setPrivAttr PackageKey (.pkg pkg)
  let r := r.setPrivAttr GazelleImportsKey (.strs (sortStrings pkg.imports))
  let r := pkg.options.foldl (fun r kv => r.setPrivAttr kv.1 (.str kv.2)) r
  if g.shouldSetVisibility then
    r.setAttr "visibility" (.strList [checkInternalVisibility g.rel "//visibility:public"])
  else r

/-- The per-rule body of the `generateEmpty` loop: skip rules of other
kinds, skip rules whose `srcs` exists but extracts to no strings, skip
rules with a known source, else record an empty rule of the managed kind
carrying only the name. -/
def emptyRecordFor (mapKind : String → String) (known : List String) (r : Rule) :
    Option Rule :=
  if !(r.kind == mapKind "proto_library") then none
  else if (r.attrStrings "srcs").length == 0 && (r.attr? "srcs").isSome then none
  else if (r.attrStrings "srcs").any (fun s => known.contains s) then none
  else some (Rule.new (mapKind "proto_library") r.name)

/-- `generateEmpty` generates the list of proto_library rules that may
be deleted, from existing rules of the managed kind whose `srcs` share
nothing with the known (regular + generated) proto files. -/
def generateEmpty (g : Generator) : List Rule :=
  match g.file with
  | none => []
  | some f =>
    f.rules.filterMap (emptyRecordFor g.mapKind (g.regularProtoFiles ++ g.genProtoFiles))

/-- Modelled from the spec: `r.IsEmpty(protoKinds[r.Kind()])` — the proto
kind table (outside the fragment) lists `srcs` as the required-non-empty
attribute of `proto_library`, so a synthesized rule is empty exactly when
it carries no `srcs` attribute. -/
def isEmptyProtoRule (r : Rule) : Bool :=
  (r.attr? "srcs").isNone

/-- Stable insertion of a rule into a name-sorted rule list (equal names
keep their relative order). -/
def insertRuleByName (x : Rule) : List Rule → List Rule
  | [] => [x]
  | y :: ys =>
    if goStrLe x.name y.name then x :: y :: ys else y :: insertRuleByName x ys

/-- Model of the `sort.SliceStable` call ordering generated rules by
name. -/
def sortRulesByName (l : List Rule) : List Rule :=
  l.foldr insertRuleByName []

/-- `GenerateRules`: the full per-directory pipeline. Returns
`(empty, gen, logged)` where `empty` collects the empty synthesized
rules followed by `generateEmpty`'s stale-rule records, `gen` the
non-empty rules sorted by name, and `logged` the messages printed via
`log.Print`. -/
def GenerateRules (pc : ProtoConfig) (analyze : String → String → FileInfo)
    (args : GenerateArgs) : List Rule × List Rule × List String :=
  if !pc.mode.shouldGenerateRules then ([], [], [])
  else
    let g := newGenerator args
    let (pkgs, logs) := buildPackages pc analyze g args.dir
    let rules := pkgs.map (generateProto pc g)
    let empty0 := rules.filter (fun r => isEmptyProtoRule r)
    let gen0 := rules.filter (fun r => !isEmptyProtoRule r)
    (empty0 ++ generateEmpty g, sortRulesByName gen0, logs)

/-! ## The Go plugin's static kind table (`language/go/kinds.go`) -/

/-- One entry of the kind policy table (`rule.KindInfo`): the per-kind
attribute policy sets, modelled as lists of attribute names. -/
structure KindInfo where
  matchAny : Bool := false
  matchAttrs : List String := []
  nonEmptyAttrs : List String := []
  substituteAttrs : List String := []
  mergeableAttrs : List String := []
  resolveAttrs : List String := []
  deriving DecidableEq, Repr

/-- `goKinds["alias"]`. -/
def aliasKindInfo : KindInfo :=
  { nonEmptyAttrs := ["actual"]
    mergeableAttrs := ["actual"] }

/-- `goKinds["filegroup"]`. -/
def filegroupKindInfo : KindInfo :=
  { nonEmptyAttrs := ["srcs"]
    mergeableAttrs := ["srcs"] }

/-- `goKinds["go_binary"]`. -/
def goBinaryKindInfo : KindInfo :=
  { matchAny := true
    nonEmptyAttrs := ["deps", "embed", "srcs"]
    substituteAttrs := ["embed"]
    mergeableAttrs := ["cgo", "clinkopts", "cppopts", "copts", "cxxopts", "embed", "srcs"]
    resolveAttrs := ["deps"] }

/-- `goKinds["go_library"]`. -/
def goLibraryKindInfo : KindInfo :=
  { matchAttrs := ["importpath"]
    nonEmptyAttrs := ["deps", "embed", "srcs"]
    substituteAttrs := ["embed"]
    mergeableAttrs := ["cgo", "clinkopts", "cppopts", "copts", "cxxopts", "embed",
      "importmap", "importpath", "srcs"]
    resolveAttrs := ["deps"] }

/-- `goKinds["yext_protos"]`. -/
def yextProtosKindInfo : KindInfo :=
  {}

/-- `goKinds["go_proto_library"]`. -/
def goProtoLibraryKindInfo : KindInfo :=
  { matchAttrs := ["importpath"]
    nonEmptyAttrs := ["deps", "embed", "proto", "srcs"]
    substituteAttrs := ["proto"]
    mergeableAttrs := ["srcs", "importpath", "importmap", "cgo", "clinkopts", "cppopts",
      "copts", "cxxopts", "embed", "proto", "compilers"]
    resolveAttrs := ["deps"] }

/-- `goKinds["go_repository"]`. -/
def goRepositoryKindInfo : KindInfo :=
  { matchAttrs := ["importpath"]
    nonEmptyAttrs := ["importpath"]
    mergeableAttrs := ["commit", "build_tags", "importpath", "remote", "replace",
      "sha256", "strip_prefix", "sum", "tag", "type", "urls", "vcs", "version"] }

/-- `goKinds["go_test"]`. -/
def goTestKindInfo : KindInfo :=
  { nonEmptyAttrs := ["deps", "embed", "srcs"]
    mergeableAttrs := ["cgo", "clinkopts", "cppopts", "copts", "cxxopts", "embed", "srcs"]
    resolveAttrs := ["deps"] }

/-- `goKinds["go_tool_library"]`. -/
def goToolLibraryKindInfo : KindInfo :=
  { matchAttrs := ["importpath"]
    nonEmptyAttrs := ["deps", "embed", "srcs"]
    substituteAttrs := ["embed"]
    mergeableAttrs := ["cgo", "clinkopts", "cppopts", "copts", "cxxopts", "embed",
      "importmap", "importpath", "srcs"]
    resolveAttrs := ["deps"] }

/-- The `goKinds` table, kinds in source order. -/
def goKinds : List (String × KindInfo) :=
  [("alias", aliasKindInfo),
   ("filegroup", filegroupKindInfo),
   ("go_binary", goBinaryKindInfo),
   ("go_library", goLibraryKindInfo),
   ("yext_protos", yextProtosKindInfo),
   ("go_proto_library", goProtoLibraryKindInfo),
   ("go_repository", goRepositoryKindInfo),
   ("go_test", goTestKindInfo),
   ("go_tool_library", goToolLibraryKindInfo)]

/-- How many of the five policy sets of a kind reference attribute `a`. -/
def setsContaining (ki : KindInfo) (a : String) : Nat :=
  (if a ∈ ki.matchAttrs then 1 else 0)
  + (if a ∈ ki.nonEmptyAttrs then 1 else 0)
  + (if a ∈ ki.substituteAttrs then 1 else 0)
  + (if a ∈ ki.mergeableAttrs then 1 else 0)
  + (if a ∈ ki.resolveAttrs then 1 else 0)

/-- All attribute names referenced by any policy set of a kind. -/
def allReferencedAttrs (ki : KindInfo) : List String :=
  ki.matchAttrs ++ ki.nonEmptyAttrs ++ ki.substituteAttrs ++ ki.mergeableAttrs
    ++ ki.resolveAttrs

/-- The invariant claimed of the kind table: every referenced attribute
name appears in exactly one policy set of its kind. -/
def kindTableExactlyOnce : Prop :=
  ∀ kv ∈ goKinds, ∀ a ∈ allReferencedAttrs kv.2, setsContaining kv.2 a = 1

instance : Decidable kindTableExactlyOnce := by
  unfold kindTableExactlyOnce
  infer_instance

/-! ## Basic lemmas about the helpers -/

theorem lastIdxSat_succ (P : Nat → Bool) (n : Nat) :
    lastIdxSat P (n + 1) = if P n then some n else lastIdxSat P n := by
  simp [lastIdxSat, List.range_succ]

theorem lastIdxSat_eq_none (P : Nat → Bool) (n : Nat) :
    lastIdxSat P n = none ↔ ∀ i, i < n → ¬ P i := by
  induction n with
  | zero => simp [lastIdxSat]
  | succ n ih =>
    rw [lastIdxSat_succ]
    cases hP : P n with
    | true =>
      constructor
      · intro h; simp at h
      · intro h; exact absurd hP (h n (Nat.lt_succ_self n))
    | false =>
      rw [if_neg (by simp), ih]
      constructor
      · intro h i hi
        rcases Nat.lt_succ_iff_lt_or_eq.mp hi with h' | rfl
        · exact h i h'
        · simp [hP]
      · intro h i hi
        exact h i (Nat.lt_succ_of_lt hi)

theorem lastIdxSat_some (P : Nat → Bool) :
    ∀ {n j}, lastIdxSat P n = some j →
      j < n ∧ P j = true ∧ ∀ k, j < k → k < n → ¬ P k := by
  intro n
  induction n with
  | zero => intro j h; simp [lastIdxSat] at h
  | succ n ih =>
    intro j h
    rw [lastIdxSat_succ] at h
    cases hP : P n with
    | true =>
      rw [if_pos hP] at h
      obtain rfl : n = j := by simpa using h
      exact ⟨Nat.lt_succ_self n, hP, fun k hk hk' => by omega⟩
    | false =>
      rw [if_neg (by simp [hP])] at h
      obtain ⟨hj, hPj, hmax⟩ := ih h
      refine ⟨Nat.lt_succ_of_lt hj, hPj, fun k hk hk' => ?_⟩
      rcases Nat.lt_succ_iff_lt_or_eq.mp hk' with h' | rfl
      · exact hmax k hk h'
      · simp [hP]

theorem lastIdxSat_isSome (P : Nat → Bool) (n i : Nat) (hi : i < n)
    (hP : P i = true) : (lastIdxSat P n).isSome = true := by
  cases h : lastIdxSat P n with
  | none => exact absurd hP ((lastIdxSat_eq_none P n).mp h i hi)
  | some j => rfl

/-! ## C8: zero and one candidate -/

/-- C8: in single-canonical mode, a directory with exactly one candidate
Package yields that Package unconditionally, and a directory with zero
candidates yields nothing and no error. -/
theorem c8_selectPackage_small (dir rel : String) :
    selectPackage dir rel [] = .ok none ∧
    ∀ kv : String × Package, selectPackage dir rel [kv] = .ok (some kv.2) :=
  ⟨rfl, fun _ => rfl⟩

/-! ## C9: the kind-table "exactly one set" invariant -/

/-- C9 counterexample: the claimed invariant — every attribute referenced
by a kind's policy sets appears in exactly one of them — is false:
`"actual"` appears in both the required-non-empty and the mergeable sets
of kind `"alias"` (and similar overlaps occur for most kinds). -/
theorem c9_counterexample : ¬ kindTableExactlyOnce := by
  intro h
  have := h ("alias", aliasKindInfo) (by simp [goKinds]) "actual" (by decide)
  simp [setsContaining, aliasKindInfo] at this

/-- C9 (amended): attribute names may appear in several policy sets of a
kind, but for every rule kind, no attribute referenced by the resolved
set appears in the mergeable or substitute sets. -/
theorem c9_resolve_disjoint :
    ∀ kv ∈ goKinds, ∀ a ∈ kv.2.resolveAttrs,
      a ∉ kv.2.mergeableAttrs ∧ a ∉ kv.2.substituteAttrs := by
  decide

/-- Witness for C9's amended theorem at kind `go_binary`, attribute
`deps`. -/
theorem c9_witness :
    "deps" ∉ goBinaryKindInfo.mergeableAttrs ∧
    "deps" ∉ goBinaryKindInfo.substituteAttrs :=
  c9_resolve_disjoint ("go_binary", goBinaryKindInfo) (by simp [goKinds])
    "deps" (by decide)

/-! ## C10: collection of generated proto files -/

/-- The generated-file collection as the claim states it (and as the
parallel regular-file loop in `newGenerator` does it for regular files):
exactly the generated names ending in `.proto`, each once. -/
def genProtoFilesClaim (genFiles : List String) : List String :=
  genFiles.filter (fun name => hasSuffix name ".proto")

/-- C10: the code diverges from the claim. The loop assigns
`genProtoFiles = append(args.GenFiles, name)` — appending to the
argument slice instead of the accumulator — so for generated files
`["a.txt", "b.proto"]` it produces all generated files plus a duplicate
of the last `.proto` file instead of the filtered list. -/
theorem c10_genFiles_divergence :
    computeGenProtoFiles ["a.txt", "b.proto"] = ["a.txt", "b.proto", "b.proto"]
    ∧ genProtoFilesClaim ["a.txt", "b.proto"] = ["b.proto"]
    ∧ computeGenProtoFiles ["a.txt", "b.proto"]
        ≠ genProtoFilesClaim ["a.txt", "b.proto"] := by
  refine ⟨by decide, by decide, by decide⟩

/-! ## C2: the rule-naming function -/

/-- C2: `RuleName` is total and deterministic: it scans the candidates in
order, trims each to its identifier-character suffix, takes the first
non-empty trimmed result as base (the fallback `"root"` when all trim
empty) and appends `"_proto"`, so the result is always non-empty and ends
in `"_proto"`; in particular `["", "my/pkg.ext", ""]` yields
`"ext_proto"`. -/
theorem c2_ruleName :
    (∀ as n bs, (∀ a ∈ as, trimToIdentSuffix a = "") → trimToIdentSuffix n ≠ "" →
      RuleName (as ++ n :: bs) = trimToIdentSuffix n ++ "_proto")
    ∧ (∀ names, (∀ n ∈ names, trimToIdentSuffix n = "") →
        RuleName names = "root_proto")
    ∧ (∀ names, RuleName names ≠ ""
        ∧ ∃ b, (RuleName names).data = b ++ "_proto".data)
    ∧ RuleName ["", "my/pkg.ext", ""] = "ext_proto" := by
  refine ⟨?_, ?_, ?_, by decide⟩
  · intro as n bs hall hn
    induction as with
    | nil => simp [RuleName, RuleNameBase, hn]
    | cons a as ih =>
      have ha : trimToIdentSuffix a = "" := hall a (by simp)
      have step := ih (fun x hx => hall x (by simp [hx]))
      simpa [RuleName, RuleNameBase, ha] using step
  · intro names h
    induction names with
    | nil => decide
    | cons n ns ih =>
      have hn := h n (by simp)
      have step := ih (fun x hx => h x (by simp [hx]))
      simpa [RuleName, RuleNameBase, hn] using step
  · intro names
    constructor
    · intro hcontra
      have hdata := congrArg String.data hcontra
      simp only [RuleName, String.data_append] at hdata
      exact absurd (List.append_eq_nil.mp hdata).2 (by decide)
    · exact ⟨(RuleNameBase names).data, by simp [RuleName, String.data_append]⟩

/-- Witness for C2's theorem: the scanning clause applied at the spec's
concrete scenario, and the fallback clause at a candidate list trimming
to empty. -/
theorem c2_witness :
    RuleName ["", "my/pkg.ext", ""] = trimToIdentSuffix "my/pkg.ext" ++ "_proto"
    ∧ RuleName ["!"] = "root_proto" :=
  ⟨c2_ruleName.1 [""] "my/pkg.ext" [""] (by decide) (by decide),
   c2_ruleName.2.1 ["!"] (by decide)⟩

/-! ## C3 / C7: the stale-rule detector -/

theorem contains_iff_mem (l : List String) (a : String) :
    l.contains a = true ↔ a ∈ l := by
  simp [List.contains, List.elem_iff]

theorem emptyRecordFor_skip_of_known (mk : String → String) (known : List String)
    (r : Rule) (srcs : List String) (hkind : r.kind = mk "proto_library")
    (hsrcs : r.attr? "srcs" = some (.strList srcs))
    (h : ∃ s ∈ srcs, s ∈ known) :
    emptyRecordFor mk known r = none := by
  obtain ⟨s, hs, hknown⟩ := h
  have hstr : r.attrStrings "srcs" = srcs := by simp [Rule.attrStrings, hsrcs]
  have hne : srcs ≠ [] := List.ne_nil_of_mem hs
  have hany : srcs.any (fun s => known.contains s) = true := by
    rw [List.any_eq_true]
    exact ⟨s, hs, (contains_iff_mem known s).mpr hknown⟩
  simp only [emptyRecordFor, Rule.attrStrings, hkind, hsrcs, hany]
  simp

theorem emptyRecordFor_emit_of_unknown (mk : String → String) (known : List String)
    (r : Rule) (srcs : List String) (hkind : r.kind = mk "proto_library")
    (hsrcs : r.attr? "srcs" = some (.strList srcs)) (hne : srcs ≠ [])
    (hnone : ∀ s ∈ srcs, s ∉ known) :
    emptyRecordFor mk known r = some (Rule.new (mk "proto_library") r.name) := by
  have hany : srcs.any (fun s => known.contains s) = false := by
    rw [List.any_eq_false]
    intro s hs hc
    exact hnone s hs ((contains_iff_mem known s).mp hc)
  have hlen : (srcs.length == 0) = false := by
    rw [beq_eq_false_iff_ne]
    simpa [List.length_eq_zero] using hne
  simp only [emptyRecordFor, Rule.attrStrings, hkind, hsrcs, hany, hlen]
  simp

theorem generateEmpty_eq_filterMap (g : Generator) (f : BuildFile)
    (hf : g.file = some f) :
    generateEmpty g = f.rules.filterMap
      (emptyRecordFor g.mapKind (g.regularProtoFiles ++ g.genProtoFiles)) := by
  simp [generateEmpty, hf]

/-- C3: for an existing rule of the managed kind whose `srcs` attribute
is a plain string list, the stale detector never emits a record when some
listed source is in the known set, and always emits an empty record
carrying only kind and name when the list is non-empty and shares nothing
with the known set; `generateEmpty` is exactly this per-rule decision
mapped over the existing file's rules, with the known set the regular
plus generated proto files. -/
theorem c3_staleDetector (mk : String → String) (known : List String) (r : Rule)
    (srcs : List String)
    (hkind : r.kind = mk "proto_library")
    (hsrcs : r.attr? "srcs" = some (.strList srcs)) :
    ((∃ s ∈ srcs, s ∈ known) → emptyRecordFor mk known r = none)
    ∧ (srcs ≠ [] → (∀ s ∈ srcs, s ∉ known) →
        emptyRecordFor mk known r = some (Rule.new (mk "proto_library") r.name))
    ∧ (∀ g f, g.file = some f →
        generateEmpty g = f.rules.filterMap
          (emptyRecordFor g.mapKind (g.regularProtoFiles ++ g.genProtoFiles))) :=
  ⟨emptyRecordFor_skip_of_known mk known r srcs hkind hsrcs,
   emptyRecordFor_emit_of_unknown mk known r srcs hkind hsrcs,
   generateEmpty_eq_filterMap⟩

/-- Witness for C3's theorem at the spec's scenario: existing rule
`old_proto` with sources `["gone.src"]` against known files
`{new.src}`. -/
theorem c3_witness :
    emptyRecordFor (fun k => k) ["new.src"]
      { kind := "proto_library", name := "old_proto",
        attrs := [("srcs", AttrValue.strList ["gone.src"])], privAttrs := [] }
      = some (Rule.new "proto_library" "old_proto") :=
  (c3_staleDetector (fun k => k) ["new.src"]
      { kind := "proto_library", name := "old_proto",
        attrs := [("srcs", AttrValue.strList ["gone.src"])], privAttrs := [] }
      ["gone.src"] rfl rfl).2.1
    (by decide) (by decide)

/-- C7 counterexample: a rule whose `srcs` attribute is present and is a
plain — but empty — list of strings is skipped by the detector (the
second branch of the loop cannot distinguish it from a computed
expression), although the claim requires an empty record to be emitted
whenever the listed-source list is empty. -/
theorem c7_counterexample :
    Rule.attr?
      { kind := "proto_library", name := "r",
        attrs := [("srcs", AttrValue.strList [])], privAttrs := [] } "srcs"
      = some (.strList [])
    ∧ generateEmpty
        { mapKind := (fun k => k)
          file := some
            { rules :=
                [{ kind := "proto_library", name := "r",
                   attrs := [("srcs", AttrValue.strList [])], privAttrs := [] }] }
          rel := ""
          shouldSetVisibility := true
          regularProtoFiles := ["a.proto"]
          genProtoFiles := [] }
      = [] :=
  ⟨rfl, rfl⟩

/-- C7 (amended): for an existing rule of the managed kind, when the
`srcs` attribute exists but extracts to no strings — whether it is not a
plain string list or is the literal empty list — the detector skips the
rule unconditionally; when the attribute is absent, or is a non-empty
string list sharing nothing with the known set, an empty record carrying
only kind and name is emitted. -/
theorem c7_opaqueSources (mk : String → String) (known : List String) (r : Rule)
    (hkind : r.kind = mk "proto_library") :
    (∀ v, r.attr? "srcs" = some v → r.attrStrings "srcs" = [] →
      emptyRecordFor mk known r = none)
    ∧ (r.attr? "srcs" = none →
        emptyRecordFor mk known r = some (Rule.new (mk "proto_library") r.name))
    ∧ (∀ srcs, r.attr? "srcs" = some (.strList srcs) → srcs ≠ [] →
        (∀ s ∈ srcs, s ∉ known) →
        emptyRecordFor mk known r = some (Rule.new (mk "proto_library") r.name)) := by
  refine ⟨?_, ?_, ?_⟩
  · intro v hv hstr
    simp [emptyRecordFor, hkind, hstr, hv]
  · intro hnone
    have hstr : r.attrStrings "srcs" = [] := by simp [Rule.attrStrings, hnone]
    simp [emptyRecordFor, hkind, hstr, hnone]
  · intro srcs hsrcs hne hunknown
    exact emptyRecordFor_emit_of_unknown mk known r srcs hkind hsrcs hne hunknown

/-- Witness for C7's amended theorem: a computed (opaque) `srcs` is
skipped, an absent `srcs` is emitted. -/
theorem c7_witness :
    emptyRecordFor (fun k => k) ["a.proto"]
      { kind := "proto_library", name := "computed",
        attrs := [("srcs", AttrValue.opaque0)], privAttrs := [] } = none
    ∧ emptyRecordFor (fun k => k) ["a.proto"]
      { kind := "proto_library", name := "nosrcs", attrs := [], privAttrs := [] }
      = some (Rule.new "proto_library" "nosrcs") :=
  ⟨(c7_opaqueSources (fun k => k) ["a.proto"] _ rfl).1 .opaque0 rfl rfl,
   (c7_opaqueSources (fun k => k) ["a.proto"] _ rfl).2.1 rfl⟩

/-! ## C1 / C6: canonical-package selection -/

theorem selectPackage_match (dir rel : String) (pm : List (String × Package))
    (k : String) (p : Package)
    (hlen : 1 < pm.length)
    (hmem : (k, p) ∈ pm)
    (hne : goPackageName p ≠ "")
    (hname : goPackageName p = replaceChar rel '/' '_')
    (huniq : ∀ kv ∈ pm, goPackageName kv.2 ≠ "" →
      goPackageName kv.2 = replaceChar rel '/' '_' → kv.2 = p) :
    selectPackage dir rel pm = .ok (some p) := by
  match pm, hlen with
  | a :: b :: rest, _ =>
    show (match (a :: b :: rest).find?
        (fun kv => !(goPackageName kv.2 == "")
          && (goPackageName kv.2 == replaceChar rel '/' '_')) with
      | some kv => Except.ok (some kv.2)
      | none => Except.error (ambiguousErr dir)) = Except.ok (some p)
    cases hf : (a :: b :: rest).find?
        (fun kv => !(goPackageName kv.2 == "")
          && (goPackageName kv.2 == replaceChar rel '/' '_')) with
    | none =>
      exfalso
      have := List.find?_eq_none.mp hf (k, p) hmem
      simp only [Bool.and_eq_true, Bool.not_eq_true', beq_eq_false_iff_ne,
        beq_iff_eq] at this
      exact this ⟨hne, hname⟩
    | some kv =>
      have hpred := List.find?_some hf
      simp only [Bool.and_eq_true, Bool.not_eq_true', beq_eq_false_iff_ne,
        beq_iff_eq] at hpred
      have hkv : kv.2 = p :=
        huniq kv (List.mem_of_find?_eq_some hf) hpred.1 hpred.2
      simp [hf, hkv]

theorem selectPackage_ambiguous (dir rel : String) (pm : List (String × Package))
    (hlen : 1 < pm.length)
    (hnomatch : ∀ kv ∈ pm, goPackageName kv.2 = ""
      ∨ goPackageName kv.2 ≠ replaceChar rel '/' '_') :
    selectPackage dir rel pm = .error (ambiguousErr dir) := by
  match pm, hlen with
  | a :: b :: rest, _ =>
    show (match (a :: b :: rest).find?
        (fun kv => !(goPackageName kv.2 == "")
          && (goPackageName kv.2 == replaceChar rel '/' '_')) with
      | some kv => Except.ok (some kv.2)
      | none => Except.error (ambiguousErr dir)) = Except.error (ambiguousErr dir)
    cases hf : (a :: b :: rest).find?
        (fun kv => !(goPackageName kv.2 == "")
          && (goPackageName kv.2 == replaceChar rel '/' '_')) with
    | none => simp [hf]
    | some kv =>
      exfalso
      have hpred := List.find?_some hf
      simp only [Bool.and_eq_true, Bool.not_eq_true', beq_eq_false_iff_ne,
        beq_iff_eq] at hpred
      rcases hnomatch kv (List.mem_of_find?_eq_some hf) with h | h
      · exact hpred.1 h
      · exact h hpred.2

/-- C1: in single-canonical mode with more than one candidate, selection
returns the candidate whose non-empty guessed external name
(`goPackageName`: the `go_package` option value after a `;`, else after
the last `/`, else raw; else the declared name with `.` replaced by `_`;
else the single member file minus `.proto`) equals the default name
obtained by replacing `/` with `_` in the directory's slash-relative
path, provided that candidate is the unique such match. -/
theorem c1_selectPackage (dir rel : String) (pm : List (String × Package))
    (k : String) (p : Package)
    (hlen : 1 < pm.length)
    (hmem : (k, p) ∈ pm)
    (hne : goPackageName p ≠ "")
    (hname : goPackageName p = replaceChar rel '/' '_')
    (huniq : ∀ kv ∈ pm, goPackageName kv.2 ≠ "" →
      goPackageName kv.2 = replaceChar rel '/' '_' → kv.2 = p) :
    selectPackage dir rel pm = .ok (some p) :=
  selectPackage_match dir rel pm k p hlen hmem hne hname huniq

/-- Witness for C1's theorem at the spec's scenario: directory `foo/bar`
with candidate packages `p1` (declared name `p1`, file `a.src`, guessed
name `p1`) and `p2` (declared name `foo.bar`, file `b.src`, guessed name
`foo_bar`); the default name is `foo_bar` and `p2` is selected. -/
theorem c1_witness :
    selectPackage "foo/bar" "foo/bar"
      [("p1", { name := "p1", files := ["a.src"], imports := [], options := [] }),
       ("p2", { name := "foo.bar", files := ["b.src"], imports := [], options := [] })]
      = .ok (some { name := "foo.bar", files := ["b.src"], imports := [], options := [] }) :=
  c1_selectPackage "foo/bar" "foo/bar" _ "p2"
    { name := "foo.bar", files := ["b.src"], imports := [], options := [] }
    (by decide) (by decide) (by decide) (by decide) (by decide)

/-- C6: in single-canonical mode, when the built package map has more
than one candidate and none has a non-empty guessed name equal to the
default name, the whole pipeline logs exactly the ambiguous-package
error — whose message starts with the directory — generates no rule for
the directory, and still returns the stale-rule detector's output. -/
theorem c6_ambiguousRecovery (pc : ProtoConfig)
    (analyze : String → String → FileInfo) (args : GenerateArgs)
    (hmode : pc.mode = .defaultMode)
    (hlen : 1 < (buildPackageMap pc.groupOption
      ((newGenerator args).regularProtoFiles.map (analyze args.dir))).length)
    (hnomatch : ∀ kv ∈ buildPackageMap pc.groupOption
        ((newGenerator args).regularProtoFiles.map (analyze args.dir)),
      goPackageName kv.2 = ""
        ∨ goPackageName kv.2 ≠ replaceChar args.rel '/' '_') :
    GenerateRules pc analyze args
      = (generateEmpty (newGenerator args), [], [ambiguousErr args.dir])
    ∧ ∃ rest, (ambiguousErr args.dir).data = args.dir.data ++ rest := by
  constructor
  · have hsel := selectPackage_ambiguous args.dir (newGenerator args).rel
      (buildPackageMap pc.groupOption
        ((newGenerator args).regularProtoFiles.map (analyze args.dir)))
      hlen ?_
    · have hbp : buildPackages pc analyze (newGenerator args) args.dir
          = ([], [ambiguousErr args.dir]) := by
        simp [buildPackages, hmode, hsel]
      simp [GenerateRules, hmode, Mode.shouldGenerateRules, hbp, sortRulesByName]
    · intro kv hkv
      exact hnomatch kv hkv
  · exact ⟨": directory contains multiple proto packages. Gazelle can only generate a proto_library for one package.".data,
      by simp [ambiguousErr, String.data_append]⟩

/-- Witness for C6's theorem: directory `foo` with two proto files whose
declared packages `p1`, `p2` both differ from the default name `foo`; the
run returns only the stale record for the existing rule `stale`, no
generated rules, and logs the ambiguity error for `foo`. -/
theorem c6_witness :
    GenerateRules
      { mode := .defaultMode, groupOption := "", goPfx := "" }
      (fun _ name =>
        if name == "a.proto" then
          { name := "a.proto", packageName := "p1", options := [], imports := [] }
        else
          { name := "b.proto", packageName := "p2", options := [], imports := [] })
      { mapKind := (fun k => k)
        dir := "foo"
        rel := "foo"
        regularFiles := ["a.proto", "b.proto"]
        genFiles := []
        file := some
          { rules :=
              [{ kind := "proto_library", name := "stale",
                 attrs := [("srcs", AttrValue.strList ["gone.proto"])],
                 privAttrs := [] }] } }
      = ([Rule.new "proto_library" "stale"], [], [ambiguousErr "foo"]) :=
  (c6_ambiguousRecovery
      { mode := .defaultMode, groupOption := "", goPfx := "" }
      (fun _ name =>
        if name == "a.proto" then
          { name := "a.proto", packageName := "p1", options := [], imports := [] }
        else
          { name := "b.proto", packageName := "p2", options := [], imports := [] })
      { mapKind := (fun k => k)
        dir := "foo"
        rel := "foo"
        regularFiles := ["a.proto", "b.proto"]
        genFiles := []
        file := some
          { rules :=
              [{ kind := "proto_library", name := "stale",
                 attrs := [("srcs", AttrValue.strList ["gone.proto"])],
                 privAttrs := [] }] } }
      rfl (by decide) (by decide)).1.trans (by decide)

/-! ## C5: attribute assembly round-trip -/

theorem lexLe_iff (x y : List Char) :
    lexLe x y = true ↔ ¬ List.Lex (· < ·) y x := by
  induction x generalizing y with
  | nil =>
    constructor
    · intro _ h
      cases h
    · intro _
      rfl
  | cons a as ih =>
    cases y with
    | nil =>
      constructor
      · intro h
        simp [lexLe] at h
      · intro h
        exact absurd List.Lex.nil h
    | cons b bs =>
      by_cases hab : a < b
      · simp only [lexLe, if_pos hab]
        constructor
        · intro _ h
          cases h with
          | cons h' => exact absurd hab (lt_irrefl _)
          | rel h' => exact absurd hab (lt_asymm h')
        · intro _
          trivial
      · by_cases hba : b < a
        · simp only [lexLe, if_neg hab, if_pos hba]
          constructor
          · intro h
            exact absurd h (by simp)
          · intro h
            exact absurd (List.Lex.rel hba) h
        · have heq : a = b := le_antisymm (le_of_not_lt hba) (le_of_not_lt hab)
          subst heq
          rw [show lexLe (a :: as) (a :: bs) = lexLe as bs from by
            simp [lexLe], ih bs]
          constructor
          · intro h hl
            refine h ?_
            cases hl with
            | cons h' => exact h'
            | rel h' => exact absurd h' (lt_irrefl _)
          · intro h hl
            exact h (List.Lex.cons hl)

theorem goStrLe_iff (x y : String) : goStrLe x y = true ↔ x ≤ y := by
  rw [show goStrLe x y = lexLe x.data y.data from rfl, lexLe_iff,
    String.le_iff_toList_le, ← not_lt]
  exact Iff.rfl

theorem insertSorted_perm (x : String) (l : List String) :
    List.Perm (insertSorted x l) (x :: l) := by
  induction l with
  | nil => exact List.Perm.refl _
  | cons y ys ih =>
    by_cases h : goStrLe x y = true
    · rw [insertSorted, if_pos h]
    · rw [insertSorted, if_neg h]
      exact (List.Perm.cons y ih).trans (List.Perm.swap x y ys)

theorem sortStrings_perm (l : List String) : List.Perm (sortStrings l) l := by
  induction l with
  | nil => exact List.Perm.refl _
  | cons x xs ih =>
    exact (insertSorted_perm x (sortStrings xs)).trans (List.Perm.cons x ih)

theorem insertSorted_sorted (x : String) {l : List String}
    (h : List.Sorted (· ≤ ·) l) : List.Sorted (· ≤ ·) (insertSorted x l) := by
  induction l with
  | nil => simp [insertSorted]
  | cons y ys ih =>
    rw [List.sorted_cons] at h
    by_cases hxy : goStrLe x y = true
    · rw [insertSorted, if_pos hxy, List.sorted_cons]
      have hle : x ≤ y := (goStrLe_iff x y).mp hxy
      refine ⟨?_, List.sorted_cons.mpr h⟩
      intro b hb
      rcases List.mem_cons.mp hb with rfl | hb
      · exact hle
      · exact le_trans hle (h.1 b hb)
    · rw [insertSorted, if_neg hxy, List.sorted_cons]
      have hle : y ≤ x := le_of_not_le (fun hc => hxy ((goStrLe_iff x y).mpr hc))
      refine ⟨?_, ih h.2⟩
      intro b hb
      rcases List.mem_cons.mp ((insertSorted_perm x ys).mem_iff.mp hb) with rfl | hb
      · exact hle
      · exact h.1 b hb

theorem sortStrings_sorted (l : List String) :
    List.Sorted (· ≤ ·) (sortStrings l) := by
  induction l with
  | nil => simp [sortStrings]
  | cons x xs ih => exact insertSorted_sorted x ih

theorem getPair_setPair_self {β : Type} (l : List (String × β)) (k : String)
    (v : β) : getPair (setPair l k v) k = some v := by
  induction l with
  | nil => simp [setPair, getPair]
  | cons kv rest ih =>
    by_cases h : kv.1 = k
    · simp [setPair, h, getPair]
    · simp only [setPair, if_neg h]
      simpa [getPair, List.find?_cons, h] using ih

theorem getPair_setPair_ne {β : Type} (l : List (String × β)) (k k' : String)
    (v : β) (h : k ≠ k') : getPair (setPair l k v) k' = getPair l k' := by
  induction l with
  | nil => simp [setPair, getPair, h]
  | cons kv rest ih =>
    by_cases hk : kv.1 = k
    · subst hk
      simp [setPair, getPair, List.find?_cons, h]
    · simp only [setPair, if_neg hk]
      by_cases hk' : kv.1 = k'
      · simp [getPair, List.find?_cons, hk']
      · simpa [getPair, List.find?_cons, hk'] using ih

theorem attrs_privOptFold (opts : List (String × String)) (r : Rule) :
    (opts.foldl (fun r kv => r.setPrivAttr kv.1 (.str kv.2)) r).attrs
      = r.attrs := by
  induction opts generalizing r with
  | nil => rfl
  | cons kv rest ih =>
    rw [List.foldl_cons, ih]
    rfl

theorem privAttr_privOptFold (opts : List (String × String)) (r : Rule)
    (key : String) (h : ∀ kv ∈ opts, kv.1 ≠ key) :
    (opts.foldl (fun r kv => r.setPrivAttr kv.1 (.str kv.2)) r).privAttr? key
      = r.privAttr? key := by
  induction opts generalizing r with
  | nil => rfl
  | cons kv rest ih =>
    rw [List.foldl_cons, ih _ (fun x hx => h x (List.mem_cons_of_mem _ hx))]
    exact getPair_setPair_ne _ _ _ _ (h kv (List.mem_cons_self _ _))

theorem privAttr_setAttr (r : Rule) (k : String) (v : AttrValue) (key : String) :
    (r.setAttr k v).privAttr? key = r.privAttr? key :=
  rfl

theorem attr_setPrivAttr (r : Rule) (k : String) (v : PrivValue) (key : String) :
    (r.setPrivAttr k v).attr? key = r.attr? key :=
  rfl

theorem attr_setAttr_ne (r : Rule) (k : String) (v : AttrValue) (key : String)
    (h : k ≠ key) : (r.setAttr k v).attr? key = r.attr? key :=
  getPair_setPair_ne _ _ _ _ h

theorem attr_privOptFold (opts : List (String × String)) (r : Rule)
    (key : String) :
    (opts.foldl (fun r kv => r.setPrivAttr kv.1 (.str kv.2)) r).attr? key
      = r.attr? key := by
  simp [Rule.attr?, attrs_privOptFold]

theorem generateProto_attr_srcs (pc : ProtoConfig) (g : Generator) (pkg : Package) :
    (generateProto pc g pkg).attr? "srcs"
      = if 0 < (sortStrings pkg.files).length
        then some (.strList (sortStrings pkg.files)) else none := by
  unfold generateProto
  by_cases hv : g.shouldSetVisibility
  · simp only [hv, ite_true]
    rw [attr_setAttr_ne _ _ _ _ (by decide), attr_privOptFold,
      attr_setPrivAttr, attr_setPrivAttr]
    by_cases hl : 0 < (sortStrings pkg.files).length
    · rw [if_pos hl, if_pos hl]
      exact getPair_setPair_self _ _ _
    · rw [if_neg hl, if_neg hl]
      rfl
  · simp only [hv, ite_false, Bool.false_eq_true]
    rw [attr_privOptFold, attr_setPrivAttr, attr_setPrivAttr]
    by_cases hl : 0 < (sortStrings pkg.files).length
    · rw [if_pos hl, if_pos hl]
      exact getPair_setPair_self _ _ _
    · rw [if_neg hl, if_neg hl]
      rfl

theorem generateProto_privAttr_imports (pc : ProtoConfig) (g : Generator)
    (pkg : Package) (hopts : ∀ kv ∈ pkg.options, kv.1 ≠ GazelleImportsKey) :
    (generateProto pc g pkg).privAttr? GazelleImportsKey
      = some (.strs (sortStrings pkg.imports)) := by
  unfold generateProto
  by_cases hv : g.shouldSetVisibility
  · simp only [hv, ite_true]
    rw [privAttr_setAttr, privAttr_privOptFold _ _ _ hopts]
    exact getPair_setPair_self _ _ _
  · simp only [hv, ite_false, Bool.false_eq_true]
    rw [privAttr_privOptFold _ _ _ hopts]
    exact getPair_setPair_self _ _ _

/-- C5: the synthesized rule's `srcs` attribute is exactly the sorted
member-file list and is omitted when that set is empty; the deferred
attachment of imports is exactly the sorted import list and is attached even
when empty; both sorted lists are permutations of the Package's input
sets, so re-extracting sources and imports recovers the input as sorted
sets. (Option keys are assumed distinct from the reserved private
key of the imports, which a `SetPrivateAttr` with a colliding key would
overwrite.) -/
theorem c5_roundTrip (pc : ProtoConfig) (g : Generator) (pkg : Package)
    (hopts : ∀ kv ∈ pkg.options, kv.1 ≠ GazelleImportsKey) :
    (generateProto pc g pkg).attrStrings "srcs" = sortStrings pkg.files
    ∧ (pkg.files = [] → (generateProto pc g pkg).attr? "srcs" = none)
    ∧ (pkg.files ≠ [] →
        (generateProto pc g pkg).attr? "srcs"
          = some (.strList (sortStrings pkg.files)))
    ∧ (generateProto pc g pkg).privAttr? GazelleImportsKey
        = some (.strs (sortStrings pkg.imports))
    ∧ List.Perm (sortStrings pkg.files) pkg.files
    ∧ List.Sorted (· ≤ ·) (sortStrings pkg.files)
    ∧ List.Perm (sortStrings pkg.imports) pkg.imports
    ∧ List.Sorted (· ≤ ·) (sortStrings pkg.imports) := by
  have hlen : (sortStrings pkg.files).length = pkg.files.length :=
    (sortStrings_perm pkg.files).length_eq
  refine ⟨?_, ?_, ?_, generateProto_privAttr_imports pc g pkg hopts,
    sortStrings_perm _, sortStrings_sorted _, sortStrings_perm _,
    sortStrings_sorted _⟩
  · by_cases hl : 0 < (sortStrings pkg.files).length
    · simp [Rule.attrStrings, generateProto_attr_srcs, hl]
    · have hnil : sortStrings pkg.files = [] := List.length_eq_zero.mp (by omega)
      simp [Rule.attrStrings, generateProto_attr_srcs, hl, hnil]
  · intro hf
    have hl : ¬ 0 < (sortStrings pkg.files).length := by
      rw [hlen, hf]
      simp
    simp [generateProto_attr_srcs, hl]
  · intro hf
    have hl : 0 < (sortStrings pkg.files).length := by
      rw [hlen]
      exact List.length_pos.mpr hf
    simp [generateProto_attr_srcs, hl]

/-- Witness for C5's theorem: a concrete Package with unsorted files
and imports round-trips to the sorted lists. -/
theorem c5_witness :
    (generateProto
        { mode := .defaultMode, groupOption := "", goPfx := "" }
        { mapKind := (fun k => k)
          file := none
          rel := ""
          shouldSetVisibility := true
          regularProtoFiles := []
          genProtoFiles := [] }
        { name := "p", files := ["b.proto", "a.proto"],
          imports := ["z", "y"], options := [("go_package", "x")] }).attrStrings
        "srcs"
      = ["a.proto", "b.proto"] :=
  ((c5_roundTrip
      { mode := .defaultMode, groupOption := "", goPfx := "" }
      { mapKind := (fun k => k)
        file := none
        rel := ""
        shouldSetVisibility := true
        regularProtoFiles := []
        genProtoFiles := [] }
      { name := "p", files := ["b.proto", "a.proto"],
        imports := ["z", "y"], options := [("go_package", "x")] }
      (by decide)).1).trans (by decide)

/-! ## C4: internal-visibility narrowing

The claim speaks of path *segments*; the code searches for the substring
`"/internal/"` (and the prefix `"internal/"`). To relate the two, paths
are built from clean segments (non-empty, slash-free) joined by `/`. -/

/-- Join segment character lists with `'/'` separators. -/
def joinC : List (List Char) → List Char
  | [] => []
  | [s] => s
  | s :: t :: rest => s ++ '/' :: joinC (t :: rest)

/-- Join string segments into a slash-separated relative path. -/
def joinSegs (segs : List String) : String :=
  ⟨joinC (segs.map String.data)⟩

/-- Clean path segments: non-empty and slash-free. -/
def cleanSegs (segs : List String) : Prop :=
  ∀ s ∈ segs, s.data ≠ [] ∧ ('/' : Char) ∉ s.data

instance (segs : List String) : Decidable (cleanSegs segs) := by
  unfold cleanSegs
  infer_instance

theorem joinC_append (a b : List (List Char)) (ha : a ≠ []) (hb : b ≠ []) :
    joinC (a ++ b) = joinC a ++ '/' :: joinC b := by
  induction a with
  | nil => exact absurd rfl ha
  | cons s a' ih =>
    cases a' with
    | nil =>
      cases b with
      | nil => exact absurd rfl hb
      | cons t b' => rfl
    | cons s' a'' =>
      have step := ih (by simp)
      show s ++ '/' :: joinC ((s' :: a'') ++ b)
        = (s ++ '/' :: joinC (s' :: a'')) ++ '/' :: joinC b
      rw [step]
      simp

theorem slashfree_append_eq (a : List Char) :
    ∀ (b c d : List Char), ('/' : Char) ∉ a → ('/' : Char) ∉ b →
    a ++ '/' :: c = b ++ '/' :: d → a = b ∧ c = d := by
  induction a with
  | nil =>
    intro b c d _ hb h
    cases b with
    | nil => simpa using h
    | cons x b' =>
      exfalso
      injection h with h1 h2
      exact hb (h1 ▸ List.mem_cons_self x b')
  | cons x a' ih =>
    intro b c d ha hb h
    cases b with
    | nil =>
      exfalso
      injection h with h1 h2
      exact ha (h1 ▸ List.mem_cons_self x a')
    | cons y b' =>
      injection h with h1 h2
      subst h1
      obtain ⟨e1, e2⟩ := ih b' c d
        (fun hm => ha (List.mem_cons_of_mem x hm))
        (fun hm => hb (List.mem_cons_of_mem x hm)) h2
      exact ⟨by rw [e1], e2⟩

theorem prefix_internal (segs : List (List Char))
    (hclean : ∀ s ∈ segs, s ≠ [] ∧ ('/' : Char) ∉ s)
    (h : ∃ t, "internal/".data ++ t = joinC segs) :
    ∃ rest, segs = "internal".data :: rest ∧ rest ≠ [] := by
  obtain ⟨t, ht⟩ := h
  cases segs with
  | nil =>
    exfalso
    have := congrArg List.length ht
    simp [joinC] at this
  | cons s rest =>
    cases rest with
    | nil =>
      exfalso
      have hs : ('/' : Char) ∈ s := by
        have : ('/' : Char) ∈ "internal/".data ++ t :=
          List.mem_append_left t (by decide)
        rw [ht] at this
        exact this
      exact (hclean s (by simp)).2 hs
    | cons t₀ rest' =>
      have ht' : "internal".data ++ '/' :: t = s ++ '/' :: joinC (t₀ :: rest') := by
        have : "internal/".data ++ t = "internal".data ++ '/' :: t := rfl
        rw [← this, ht]
        rfl
      obtain ⟨e1, _⟩ := slashfree_append_eq "internal".data s t (joinC (t₀ :: rest'))
        (by decide) (hclean s (by simp)).2 ht'
      exact ⟨t₀ :: rest', by rw [e1], by simp⟩

theorem match_decomp (segs : List (List Char))
    (hclean : ∀ s ∈ segs, s ≠ [] ∧ ('/' : Char) ∉ s) :
    ∀ i t, "/internal/".data ++ t = (joinC segs).drop i →
    ∃ pre post, segs = pre ++ "internal".data :: post ∧ pre ≠ [] ∧ post ≠ []
      ∧ i = (joinC pre).length := by
  induction segs with
  | nil =>
    intro i t ht
    exfalso
    have := congrArg List.length ht
    simp [joinC] at this
  | cons s rest ih =>
    intro i t ht
    cases rest with
    | nil =>
      exfalso
      have hs : ('/' : Char) ∈ s := by
        have hmem : ('/' : Char) ∈ "/internal/".data ++ t :=
          List.mem_append_left t (by decide)
        rw [ht] at hmem
        exact List.mem_of_mem_drop hmem
      exact (hclean s (by simp)).2 hs
    | cons t₀ rest' =>
      have hjoin : joinC (s :: t₀ :: rest') = s ++ '/' :: joinC (t₀ :: rest') := rfl
      rcases Nat.lt_trichotomy i s.length with hi | hi | hi
      · exfalso
        rw [hjoin, List.drop_append_of_le_length (Nat.le_of_lt hi)] at ht
        obtain ⟨c, cs, hcs⟩ : ∃ c cs, s.drop i = c :: cs := by
          cases hd : s.drop i with
          | nil =>
            exfalso
            have := congrArg List.length hd
            simp at this
            omega
          | cons c cs => exact ⟨c, cs, rfl⟩
        rw [hcs] at ht
        have hc : c = '/' := by
          have : ('/' : Char) :: ("internal/".data ++ t)
              = c :: (cs ++ '/' :: joinC (t₀ :: rest')) := ht
          injection this with h1 _
          exact h1.symm
        have : ('/' : Char) ∈ s := by
          rw [hc] at hcs
          exact List.mem_of_mem_drop (hcs ▸ List.mem_cons_self _ _)
        exact (hclean s (by simp)).2 this
      · subst hi
        rw [hjoin, List.drop_left] at ht
        have ht2 : "internal/".data ++ t = joinC (t₀ :: rest') :=
          (List.cons.inj (show ('/' : Char) :: ("internal/".data ++ t)
            = '/' :: joinC (t₀ :: rest') from ht)).2
        obtain ⟨rest₂, hseg, hrest₂⟩ :=
          prefix_internal (t₀ :: rest')
            (fun x hx => hclean x (List.mem_cons_of_mem s hx)) ⟨t, ht2⟩
        refine ⟨[s], rest₂, ?_, by simp, hrest₂, rfl⟩
        rw [hseg]
        rfl
      · obtain ⟨j, rfl⟩ : ∃ j, i = s.length + (j + 1) :=
          ⟨i - s.length - 1, by omega⟩
        rw [hjoin, List.drop_append, List.drop_succ_cons] at ht
        obtain ⟨pre', post', hseg, hpre', hpost', hj⟩ :=
          ih (fun x hx => hclean x (List.mem_cons_of_mem s hx)) j t ht
        refine ⟨s :: pre', post', ?_, by simp, hpost', ?_⟩
        · rw [hseg]
          rfl
        · obtain ⟨p, ps, rfl⟩ : ∃ p ps, pre' = p :: ps := by
            cases pre' with
            | nil => exact absurd rfl hpre'
            | cons p ps => exact ⟨p, ps, rfl⟩
          show s.length + (j + 1) = (joinC (s :: p :: ps)).length
          have hstep : joinC (s :: p :: ps) = s ++ '/' :: joinC (p :: ps) := rfl
          rw [hstep]
          simp only [List.length_append, List.length_cons, hj]

theorem match_exists (pre post : List (List Char)) (hpre : pre ≠ [])
    (hpost : post ≠ []) :
    "/internal/".data ++ joinC post
      = (joinC (pre ++ "internal".data :: post)).drop (joinC pre).length := by
  rw [joinC_append pre ("internal".data :: post) hpre (by simp), List.drop_left]
  cases post with
  | nil => exact absurd rfl hpost
  | cons q qs => rfl

theorem internal_mem_dropLast (l₁ l₂ : List (List Char)) (h : l₂ ≠ []) :
    "internal".data ∈ (l₁ ++ "internal".data :: l₂).dropLast := by
  rw [List.dropLast_append_cons, List.dropLast_cons_of_ne_nil h]
  exact List.mem_append_right _ (List.mem_cons_self _ _)

theorem lastSubstrPos_join_none (segs : List (List Char))
    (hclean : ∀ s ∈ segs, s ≠ [] ∧ ('/' : Char) ∉ s)
    (hno : "internal".data ∉ segs.dropLast) :
    lastSubstrPos (joinC segs) "/internal/".data = none
    ∧ ("internal/".data).isPrefixOf (joinC segs) = false := by
  constructor
  · refine (lastIdxSat_eq_none _ _).mpr ?_
    intro i _ hP
    obtain ⟨t, ht⟩ := List.isPrefixOf_iff_prefix.mp hP
    obtain ⟨pre₁, post₁, hseg, hpre₁, hpost₁, _⟩ := match_decomp segs hclean i t ht
    rw [hseg] at hno
    exact hno (internal_mem_dropLast pre₁ post₁ hpost₁)
  · rw [Bool.eq_false_iff]
    intro hp
    obtain ⟨rest, hseg, hrest⟩ :=
      prefix_internal segs hclean (List.isPrefixOf_iff_prefix.mp hp)
    rw [hseg] at hno
    exact hno (internal_mem_dropLast [] rest hrest)

theorem lastSubstrPos_first_internal (post : List (List Char))
    (hclean : ∀ s ∈ "internal".data :: post, s ≠ [] ∧ ('/' : Char) ∉ s)
    (hlast : "internal".data ∉ post.dropLast) :
    lastSubstrPos (joinC ("internal".data :: post)) "/internal/".data = none := by
  refine (lastIdxSat_eq_none _ _).mpr ?_
  intro i _ hP
  obtain ⟨t, ht⟩ := List.isPrefixOf_iff_prefix.mp hP
  obtain ⟨pre₁, post₁, hseg, hpre₁, hpost₁, _⟩ := match_decomp _ hclean i t ht
  obtain ⟨x, xs, hx⟩ := List.exists_cons_of_ne_nil hpre₁
  rw [hx] at hseg
  obtain ⟨_, h2⟩ := List.cons.inj hseg
  rw [h2] at hlast
  exact hlast (internal_mem_dropLast xs post₁ hpost₁)

theorem startsWith_internal (post : List (List Char)) (hpost : post ≠ []) :
    ("internal/".data).isPrefixOf (joinC ("internal".data :: post)) = true := by
  rw [List.isPrefixOf_iff_prefix]
  cases post with
  | nil => exact absurd rfl hpost
  | cons q qs => exact ⟨joinC (q :: qs), rfl⟩

theorem lastSubstrPos_join_some (pre post : List (List Char))
    (hclean : ∀ s ∈ pre ++ "internal".data :: post, s ≠ [] ∧ ('/' : Char) ∉ s)
    (hpre : pre ≠ []) (hpost : post ≠ [])
    (hlast : "internal".data ∉ post.dropLast) :
    lastSubstrPos (joinC (pre ++ "internal".data :: post)) "/internal/".data
      = some (joinC pre).length := by
  have hL : joinC (pre ++ "internal".data :: post)
      = joinC pre ++ '/' :: joinC ("internal".data :: post) :=
    joinC_append _ _ hpre (by simp)
  have hmatch : ("/internal/".data).isPrefixOf
      ((joinC (pre ++ "internal".data :: post)).drop (joinC pre).length) = true := by
    rw [List.isPrefixOf_iff_prefix]
    exact ⟨joinC post, match_exists pre post hpre hpost⟩
  have hlt : (joinC pre).length
      < (joinC (pre ++ "internal".data :: post)).length + 1 := by
    rw [hL]
    simp only [List.length_append, List.length_cons]
    omega
  have hsome := lastIdxSat_isSome
    (fun i => ("/internal/".data).isPrefixOf
      ((joinC (pre ++ "internal".data :: post)).drop i))
    ((joinC (pre ++ "internal".data :: post)).length + 1) _ hlt hmatch
  obtain ⟨j, hj⟩ := Option.isSome_iff_exists.mp hsome
  obtain ⟨hjlt, hjP, hjmax⟩ := lastIdxSat_some _ hj
  obtain ⟨t, ht⟩ := List.isPrefixOf_iff_prefix.mp hjP
  obtain ⟨pre₁, post₁, hseg, hpre₁, hpost₁, hjeq⟩ := match_decomp _ hclean j t ht
  have hgoal : j = (joinC pre).length := by
    rcases Nat.lt_trichotomy pre.length pre₁.length with hcm | hcm | hcm
    · exfalso
      have hdropL : (pre ++ "internal".data :: post).drop pre.length
          = "internal".data :: post := List.drop_left _ _
      have hdropR : (pre₁ ++ "internal".data :: post₁).drop pre.length
          = pre₁.drop pre.length ++ "internal".data :: post₁ :=
        List.drop_append_of_le_length (Nat.le_of_lt hcm)
      have heq : "internal".data :: post
          = pre₁.drop pre.length ++ "internal".data :: post₁ := by
        rw [← hdropL, hseg, hdropR]
      have hdne : pre₁.drop pre.length ≠ [] := by
        intro hnil
        have := congrArg List.length hnil
        rw [List.length_drop] at this
        simp at this
        omega
      obtain ⟨x, xs, hx⟩ := List.exists_cons_of_ne_nil hdne
      rw [hx] at heq
      obtain ⟨_, h2⟩ := List.cons.inj heq
      rw [h2] at hlast
      exact hlast (internal_mem_dropLast xs post₁ hpost₁)
    · obtain ⟨e1, _⟩ := List.append_inj hseg hcm
      rw [hjeq, ← e1]
    · exfalso
      have hdropR : (pre₁ ++ "internal".data :: post₁).drop pre₁.length
          = "internal".data :: post₁ := List.drop_left _ _
      have hdropL : (pre ++ "internal".data :: post).drop pre₁.length
          = pre.drop pre₁.length ++ "internal".data :: post :=
        List.drop_append_of_le_length (Nat.le_of_lt hcm)
      have heq : pre.drop pre₁.length ++ "internal".data :: post
          = "internal".data :: post₁ := by
        rw [← hdropL, hseg, hdropR]
      have hdne : pre.drop pre₁.length ≠ [] := by
        intro hnil
        have := congrArg List.length hnil
        rw [List.length_drop] at this
        simp at this
        omega
      obtain ⟨x, xs, hx⟩ := List.exists_cons_of_ne_nil hdne
      have hxi : x = "internal".data := by
        rw [hx] at heq
        exact (List.cons.inj heq).1
      have hpre_decomp : pre = pre₁ ++ "internal".data :: xs := by
        have htake : pre.take pre₁.length = pre₁ := by
          have t1 : (pre ++ "internal".data :: post).take pre₁.length
              = pre.take pre₁.length :=
            List.take_append_of_le_length (Nat.le_of_lt hcm)
          have t2 : (pre₁ ++ "internal".data :: post₁).take pre₁.length = pre₁ :=
            List.take_left _ _
          rw [← t1, hseg, t2]
        calc pre = pre.take pre₁.length ++ pre.drop pre₁.length :=
              (List.take_append_drop _ _).symm
          _ = pre₁ ++ x :: xs := by rw [htake, hx]
          _ = pre₁ ++ "internal".data :: xs := by rw [hxi]
      have hlen2 : (joinC pre₁).length < (joinC pre).length := by
        rw [hpre_decomp, joinC_append pre₁ ("internal".data :: xs) hpre₁ (by simp)]
        simp only [List.length_append, List.length_cons]
        omega
      exact hjmax (joinC pre).length (hjeq ▸ hlen2) hlt hmatch
  exact hgoal ▸ hj

theorem checkInternalVisibility_eq (rel vis : String) :
    checkInternalVisibility rel vis
      = match lastSubstrPos rel.data "/internal/".data with
        | some i => "//" ++ (⟨rel.data.take i⟩ : String) ++ ":__subpackages__"
        | none =>
          if ("internal/".data).isPrefixOf rel.data then "//:__subpackages__"
          else vis :=
  rfl

/-- C4 counterexample: the path `internal` — a slash-relative path whose
(only, hence first) segment is literally `internal` — keeps the public
visibility, although the claim requires `//:__subpackages__` for every
path containing a segment `internal` with `internal` first. The code only
narrows when `internal` is followed by a further segment. -/
theorem c4_counterexample :
    checkInternalVisibility "internal" "//visibility:public"
        = "//visibility:public"
    ∧ checkInternalVisibility "internal" "//visibility:public"
        ≠ "//:__subpackages__" := by
  refine ⟨by decide, by decide⟩

/-- C4 (amended): when the synthesizer sets visibility over a path of
clean segments: if no segment `internal` is followed by a further
segment, the value is the default `//visibility:public`; otherwise, with
`pre` the segments before the last non-final `internal`, the value is
`//:__subpackages__` when `pre` is empty and `//<join pre>:__subpackages__`
when not. -/
theorem c4_visibility :
    (∀ segs vis, cleanSegs segs → "internal" ∉ segs.dropLast →
      checkInternalVisibility (joinSegs segs) vis = vis)
    ∧ (∀ pre post vis, cleanSegs (pre ++ "internal" :: post) → post ≠ [] →
        "internal" ∉ post.dropLast →
        checkInternalVisibility (joinSegs (pre ++ "internal" :: post)) vis
          = if pre = [] then "//:__subpackages__"
            else "//" ++ joinSegs pre ++ ":__subpackages__") := by
  constructor
  · intro segs vis hclean hno
    have hcleanC : ∀ s ∈ segs.map String.data, s ≠ [] ∧ ('/' : Char) ∉ s := by
      intro s hs
      obtain ⟨x, hx, rfl⟩ := List.mem_map.mp hs
      exact hclean x hx
    have hnoC : "internal".data ∉ (segs.map String.data).dropLast := by
      rw [← List.map_dropLast]
      intro hmem
      obtain ⟨x, hx, hdata⟩ := List.mem_map.mp hmem
      exact hno ((String.toList_inj.mp hdata) ▸ hx)
    obtain ⟨hnone, hpref⟩ := lastSubstrPos_join_none _ hcleanC hnoC
    rw [checkInternalVisibility_eq,
      show (joinSegs segs).data = joinC (segs.map String.data) from rfl,
      hnone, hpref]
    rfl
  · intro pre post vis hclean hpost hlast
    have hmap : (pre ++ "internal" :: post).map String.data
        = pre.map String.data ++ "internal".data :: post.map String.data := by
      simp
    have hcleanC : ∀ s ∈ pre.map String.data
        ++ "internal".data :: post.map String.data,
        s ≠ [] ∧ ('/' : Char) ∉ s := by
      rw [← hmap]
      intro s hs
      obtain ⟨x, hx, rfl⟩ := List.mem_map.mp hs
      exact hclean x hx
    have hlastC : "internal".data ∉ (post.map String.data).dropLast := by
      rw [← List.map_dropLast]
      intro hmem
      obtain ⟨x, hx, hdata⟩ := List.mem_map.mp hmem
      exact hlast ((String.toList_inj.mp hdata) ▸ hx)
    have hpostC : post.map String.data ≠ [] := by
      intro h
      exact hpost (by simpa using h)
    by_cases hpre : pre = []
    · subst hpre
      rw [checkInternalVisibility_eq,
        show (joinSegs ([] ++ "internal" :: post)).data
          = joinC ("internal".data :: post.map String.data) from rfl,
        lastSubstrPos_first_internal _ (fun s hs => hcleanC s hs) hlastC,
        startsWith_internal _ hpostC]
      rfl
    · have hpreC : pre.map String.data ≠ [] := by
        intro h
        exact hpre (by simpa using h)
      have hsome := lastSubstrPos_join_some (pre.map String.data)
        (post.map String.data) hcleanC hpreC hpostC hlastC
      have hdata : (joinSegs (pre ++ "internal" :: post)).data
          = joinC (pre.map String.data
            ++ "internal".data :: post.map String.data) := by
        rw [show (joinSegs (pre ++ "internal" :: post)).data
          = joinC ((pre ++ "internal" :: post).map String.data) from rfl, hmap]
      rw [checkInternalVisibility_eq, hdata, hsome]
      have htake : (joinC (pre.map String.data
            ++ "internal".data :: post.map String.data)).take
          (joinC (pre.map String.data)).length = joinC (pre.map String.data) := by
        rw [joinC_append _ _ hpreC (by simp)]
        exact List.take_left _ _
      show "//" ++ (⟨(joinC (pre.map String.data
          ++ "internal".data :: post.map String.data)).take
        (joinC (pre.map String.data)).length⟩ : String) ++ ":__subpackages__"
        = if pre = [] then "//:__subpackages__"
          else "//" ++ joinSegs pre ++ ":__subpackages__"
      rw [htake, if_neg hpre]
      rfl

/-- Witness for C4's amended theorem at the spec's scenarios:
`a/b/internal/c` narrows to `//a/b:__subpackages__`, `internal/x` narrows
to `//:__subpackages__`, and `a/b` (no internal segment) stays public. -/
theorem c4_witness :
    checkInternalVisibility (joinSegs (["a", "b"] ++ "internal" :: ["c"]))
        "//visibility:public" = "//a/b:__subpackages__"
    ∧ checkInternalVisibility (joinSegs ([] ++ "internal" :: ["x"]))
        "//visibility:public" = "//:__subpackages__"
    ∧ checkInternalVisibility (joinSegs ["a", "b"]) "//visibility:public"
        = "//visibility:public" :=
  ⟨(c4_visibility.2 ["a", "b"] ["c"] "//visibility:public" (by decide) (by decide)
      (by decide)).trans (by decide),
   (c4_visibility.2 [] ["x"] "//visibility:public" (by decide) (by decide)
      (by decide)).trans (by decide),
   c4_visibility.1 ["a", "b"] "//visibility:public" (by decide) (by decide)⟩

end GazelleProto
